import Mathlib

/-!
Verification of the steam-auth relying-party core (Redirector / Verifier).

The Rust source is shallowly embedded: strings are Lean `String`s, operated
on as `List Char` via `String.data`; Rust's `str::split(c)` and
`str::splitn(2, c)` are embedded as `splitChar` and `splitFirstAt`;
fallible operations return `Except Error _` mirroring `Result<_, Error>`.
External collaborators (the `url` crate and the `serde_urlencoded` codec)
are modelled by executable Lean functions, restricted to the hierarchical
URLs and flat string forms this crate actually exchanges.
-/

namespace SteamAuth

/-! ## Character-list splitting: model of Rust `str::split` / `str::splitn` -/

/-- Model of Rust `str::split(sep)`: splits at every occurrence of `sep`;
always returns at least one (possibly empty) piece, `n + 1` pieces for
`n` separators. -/
def splitChar (sep : Char) : List Char → List (List Char)
  | [] => [[]]
  | c :: cs =>
    if c = sep then [] :: splitChar sep cs
    else
      match splitChar sep cs with
      | [] => [[c]]
      | h :: t => (c :: h) :: t

/-- Inverse of `splitChar`: interleaves `sep` between the pieces. -/
def joinSep (sep : Char) : List (List Char) → List Char
  | [] => []
  | [p] => p
  | p :: q :: ps => p ++ sep :: joinSep sep (q :: ps)

/-- Model of Rust `str::splitn(2, sep)` when both pieces are demanded:
`none` when `sep` does not occur, otherwise the part before the first
`sep` paired with the entire remainder after it. -/
def splitFirstAt (sep : Char) : List Char → Option (List Char × List Char)
  | [] => none
  | c :: cs =>
    if c = sep then some ([], cs)
    else (splitFirstAt sep cs).map fun p => (c :: p.1, p.2)

theorem splitChar_ne_nil (sep : Char) (l : List Char) : splitChar sep l ≠ [] := by
  induction l with
  | nil => simp [splitChar]
  | cons c cs ih =>
    simp only [splitChar]
    split
    · simp
    · cases h : splitChar sep cs with
      | nil => simp
      | cons a b => simp

theorem joinSep_splitChar (sep : Char) (l : List Char) :
    joinSep sep (splitChar sep l) = l := by
  induction l with
  | nil => simp [splitChar, joinSep]
  | cons c cs ih =>
    simp only [splitChar]
    split
    · rename_i hc
      cases h : splitChar sep cs with
      | nil => exact absurd h (splitChar_ne_nil sep cs)
      | cons a b =>
        rw [h] at ih
        simp [joinSep, ih, hc]
    · cases h : splitChar sep cs with
      | nil => exact absurd h (splitChar_ne_nil sep cs)
      | cons a b =>
        rw [h] at ih
        cases b with
        | nil => simpa [joinSep] using ih
        | cons b1 b2 => simpa [joinSep] using ih

theorem splitChar_append (sep : Char) (p t : List Char) (hp : sep ∉ p) :
    splitChar sep (p ++ sep :: t) = p :: splitChar sep t := by
  induction p with
  | nil => simp [splitChar]
  | cons c cs ih =>
    have hc : c ≠ sep := fun h => hp (h ▸ List.mem_cons_self c cs)
    have hcs : sep ∉ cs := fun h => hp (List.mem_cons_of_mem c h)
    simp only [List.cons_append, splitChar, if_neg hc, List.append_eq, ih hcs]

theorem splitChar_eq_self (sep : Char) (p : List Char) (hp : sep ∉ p) :
    splitChar sep p = [p] := by
  induction p with
  | nil => simp [splitChar]
  | cons c cs ih =>
    have hc : c ≠ sep := fun h => hp (h ▸ List.mem_cons_self c cs)
    have hcs : sep ∉ cs := fun h => hp (List.mem_cons_of_mem c h)
    simp [splitChar, if_neg hc, ih hcs]

theorem splitChar_joinSep (sep : Char) (parts : List (List Char))
    (hne : parts ≠ []) (hfree : ∀ p ∈ parts, sep ∉ p) :
    splitChar sep (joinSep sep parts) = parts := by
  induction parts with
  | nil => exact absurd rfl hne
  | cons p ps ih =>
    cases ps with
    | nil =>
      simp only [joinSep]
      exact splitChar_eq_self sep p (hfree p (List.mem_cons_self p []))
    | cons q qs =>
      simp only [joinSep]
      rw [splitChar_append sep p _ (hfree p (by simp))]
      rw [ih (by simp) (fun x hx => hfree x (List.mem_cons_of_mem p hx))]

theorem mem_splitChar_not_sep (sep : Char) (l : List Char) :
    ∀ x ∈ splitChar sep l, sep ∉ x := by
  induction l with
  | nil => simp [splitChar]
  | cons c cs ih =>
    simp only [splitChar]
    split
    · intro x hx
      rcases List.mem_cons.mp hx with h | h
      · subst h; simp
      · exact ih x h
    · rename_i hc
      cases h : splitChar sep cs with
      | nil => exact absurd h (splitChar_ne_nil sep cs)
      | cons a b =>
        rw [h] at ih
        intro x hx
        rcases List.mem_cons.mp hx with h1 | h1
        · subst h1
          intro hmem
          rcases List.mem_cons.mp hmem with h2 | h2
          · exact hc h2.symm
          · exact ih a (List.mem_cons_self a b) h2
        · exact ih x (List.mem_cons_of_mem a h1)

theorem splitFirstAt_eq_none_iff (sep : Char) (l : List Char) :
    splitFirstAt sep l = none ↔ sep ∉ l := by
  induction l with
  | nil => simp [splitFirstAt]
  | cons c cs ih =>
    simp only [splitFirstAt]
    split
    · rename_i hc
      subst hc
      simp
    · rename_i hc
      cases hs : splitFirstAt sep cs with
      | none =>
        have hn : sep ∉ cs := ih.mp hs
        constructor
        · intro _ hmem
          rcases List.mem_cons.mp hmem with h1 | h1
          · exact hc h1.symm
          · exact hn h1
        · intro _
          simp
      | some p =>
        have hmem : sep ∈ cs := by
          by_contra hn
          rw [ih.mpr hn] at hs
          exact Option.noConfusion hs
        constructor
        · intro hmap
          simp at hmap
        · intro hnot
          exact absurd (List.mem_cons_of_mem c hmem) hnot

theorem splitFirstAt_eq_some (sep : Char) {l k v : List Char}
    (h : splitFirstAt sep l = some (k, v)) : l = k ++ sep :: v ∧ sep ∉ k := by
  induction l generalizing k with
  | nil => simp [splitFirstAt] at h
  | cons c cs ih =>
    simp only [splitFirstAt] at h
    split at h
    · rename_i hc
      subst hc
      simp only [Option.some.injEq, Prod.mk.injEq] at h
      obtain ⟨h1, h2⟩ := h
      subst h1; subst h2
      simp
    · rename_i hc
      cases hs : splitFirstAt sep cs with
      | none => rw [hs] at h; simp at h
      | some p =>
        rw [hs] at h
        simp at h
        obtain ⟨h1, h2⟩ := h
        obtain ⟨hl, hk⟩ := ih (k := p.1) (by rw [hs, ← h2])
        constructor
        · rw [← h1]
          simp [hl, h2]
        · rw [← h1]
          intro hmem
          rcases List.mem_cons.mp hmem with h3 | h3
          · exact hc h3.symm
          · exact hk h3

theorem splitFirstAt_append (sep : Char) (k v : List Char) (hk : sep ∉ k) :
    splitFirstAt sep (k ++ sep :: v) = some (k, v) := by
  induction k with
  | nil => simp [splitFirstAt]
  | cons c cs ih =>
    have hc : c ≠ sep := fun h => hk (h ▸ List.mem_cons_self c cs)
    have hcs : sep ∉ cs := fun h => hk (List.mem_cons_of_mem c h)
    simp [splitFirstAt, if_neg hc, ih hcs]

theorem splitFirstAt_of_splitChar (sep : Char) {l k r : List Char} {rs : List (List Char)}
    (h : splitChar sep l = k :: r :: rs) :
    splitFirstAt sep l = some (k, joinSep sep (r :: rs)) := by
  have hk : sep ∉ k := mem_splitChar_not_sep sep l k (by rw [h]; simp)
  have hl : l = k ++ sep :: joinSep sep (r :: rs) := by
    have := joinSep_splitChar sep l
    rw [h] at this
    simpa [joinSep] using this.symm
  rw [hl]
  exact splitFirstAt_append sep k _ hk

/-! ## Percent codec: model of the `serde_urlencoded` / `form_urlencoded`
collaborator (an external crate, specified as an injected codec).
Safe bytes (alphanumerics and `* - . _`) pass through, space becomes `+`,
every other character is percent-escaped as the hex of its UTF-8 bytes. -/

/-- Bytes that `form_urlencoded` leaves unescaped: ASCII alphanumerics and
`*`, `-`, `.`, `_`. -/
def isSafeChar (c : Char) : Bool :=
  (48 ≤ c.toNat && c.toNat ≤ 57) || (65 ≤ c.toNat && c.toNat ≤ 90) ||
  (97 ≤ c.toNat && c.toNat ≤ 122) || c == '*' || c == '-' || c == '.' || c == '_'

def hexDigitChar (n : Nat) : Char := "0123456789ABCDEF".data.getD n '0'

/-- Hex value of a digit character (upper- or lowercase). -/
def hexVal (c : Char) : Nat :=
  if c.toNat ≥ 97 then c.toNat - 87
  else if c.toNat ≥ 65 then c.toNat - 55
  else c.toNat - 48

/-- UTF-8 byte sequence of a code point. -/
def utf8Bytes (n : Nat) : List Nat :=
  if n < 0x80 then [n]
  else if n < 0x800 then [0xC0 + n / 0x40, 0x80 + n % 0x40]
  else if n < 0x10000 then [0xE0 + n / 0x1000, 0x80 + n / 0x40 % 0x40, 0x80 + n % 0x40]
  else [0xF0 + n / 0x40000, 0x80 + n / 0x1000 % 0x40, 0x80 + n / 0x40 % 0x40, 0x80 + n % 0x40]

/-- Percent-escape of one byte. -/
def escByte (b : Nat) : List Char := ['%', hexDigitChar (b / 16), hexDigitChar (b % 16)]

def escBytes : List Nat → List Char
  | [] => []
  | b :: bs => escByte b ++ escBytes bs

/-- Form-urlencoding of one character. -/
def pencodeChar (c : Char) : List Char :=
  if isSafeChar c then [c]
  else if c = ' ' then ['+']
  else escBytes (utf8Bytes c.toNat)

def pencodeList : List Char → List Char
  | [] => []
  | c :: cs => pencodeChar c ++ pencodeList cs

/-- Form-urlencoding of a string. -/
def pencode (s : String) : String := String.mk (pencodeList s.data)

/-- One step of the first decoding pass: `+` back to space, `%HH` back to
the byte `HH`, everything else to its code point (an invalid `%` sequence
is taken verbatim). Returns the byte and the unconsumed input. -/
def unescapeOne : List Char → Nat × List Char
  | [] => (0, [])
  | c :: rest =>
    if c = '+' then (32, rest)
    else if c = '%' then
      match rest with
      | h1 :: h2 :: rest2 => (16 * hexVal h1 + hexVal h2, rest2)
      | [] => (c.toNat, [])
      | [h1] => (c.toNat, [h1])
    else (c.toNat, rest)

def unescapeAux : Nat → List Char → List Nat
  | 0, _ => []
  | _ + 1, [] => []
  | fuel + 1, c :: rest =>
    (unescapeOne (c :: rest)).1 :: unescapeAux fuel (unescapeOne (c :: rest)).2

/-- First decoding pass over a whole input. -/
def unescape (cs : List Char) : List Nat := unescapeAux cs.length cs

/-- One step of the second decoding pass: UTF-8 bytes back to one
character plus the unconsumed input (truncated sequences give U+FFFD). -/
def decodeOne : List Nat → Char × List Nat
  | [] => (Char.ofNat 0xFFFD, [])
  | b :: bs =>
    if b < 0x80 then (Char.ofNat b, bs)
    else if b < 0xE0 then
      match bs with
      | [] => (Char.ofNat 0xFFFD, [])
      | b2 :: bs2 => (Char.ofNat ((b - 0xC0) * 0x40 + (b2 - 0x80)), bs2)
    else if b < 0xF0 then
      match bs with
      | [] => (Char.ofNat 0xFFFD, [])
      | [_] => (Char.ofNat 0xFFFD, [])
      | b2 :: b3 :: bs3 =>
        (Char.ofNat ((b - 0xE0) * 0x1000 + (b2 - 0x80) * 0x40 + (b3 - 0x80)), bs3)
    else
      match bs with
      | [] => (Char.ofNat 0xFFFD, [])
      | [_] => (Char.ofNat 0xFFFD, [])
      | [_, _] => (Char.ofNat 0xFFFD, [])
      | b2 :: b3 :: b4 :: bs4 =>
        (Char.ofNat ((b - 0xF0) * 0x40000 + (b2 - 0x80) * 0x1000 + (b3 - 0x80) * 0x40 +
          (b4 - 0x80)), bs4)

def utf8DecodeAux : Nat → List Nat → List Char
  | 0, _ => []
  | _ + 1, [] => []
  | fuel + 1, b :: bs => (decodeOne (b :: bs)).1 :: utf8DecodeAux fuel (decodeOne (b :: bs)).2

/-- Second decoding pass over a whole input. -/
def utf8DecodeBytes (l : List Nat) : List Char := utf8DecodeAux l.length l

def pdecodeList (cs : List Char) : List Char := utf8DecodeBytes (unescape cs)

/-- Form-urldecoding of a string. -/
def pdecode (s : String) : String := String.mk (pdecodeList s.data)

theorem hexVal_hexDigitChar {n : Nat} (h : n < 16) : hexVal (hexDigitChar n) = n := by
  interval_cases n <;> decide

theorem unescapeOne_shrink (c : Char) (rest : List Char) :
    (unescapeOne (c :: rest)).2.length ≤ rest.length := by
  simp only [unescapeOne]
  split
  · simp
  · split
    · split <;> simp <;> omega
    · simp

theorem unescapeAux_fuel : ∀ (fuel1 fuel2 : Nat) (l : List Char), l.length ≤ fuel1 →
    l.length ≤ fuel2 → unescapeAux fuel1 l = unescapeAux fuel2 l := by
  intro fuel1
  induction fuel1 with
  | zero =>
    intro fuel2 l h1 _
    have : l = [] := List.length_eq_zero.mp (Nat.le_zero.mp h1)
    subst this
    cases fuel2 <;> rfl
  | succ m ih =>
    intro fuel2 l h1 h2
    cases l with
    | nil => cases fuel2 <;> rfl
    | cons c rest =>
      cases fuel2 with
      | zero => simp at h2
      | succ k =>
        have hs := unescapeOne_shrink c rest
        simp only [List.length_cons] at h1 h2
        simp only [unescapeAux]
        rw [ih k _ (by omega) (by omega)]

/-- The first pass consumes one decoded unit and continues. -/
theorem unescape_step {l : List Char} (hne : l ≠ []) :
    unescape l = (unescapeOne l).1 :: unescape (unescapeOne l).2 := by
  cases l with
  | nil => exact absurd rfl hne
  | cons c rest =>
    have hs := unescapeOne_shrink c rest
    simp only [unescape, List.length_cons, unescapeAux]
    rw [unescapeAux_fuel rest.length (unescapeOne (c :: rest)).2.length _ hs le_rfl]

theorem unescape_escByte {b : Nat} (hb : b < 256) (t : List Char) :
    unescape (escByte b ++ t) = b :: unescape t := by
  have h1 : b / 16 < 16 := by omega
  have h2 : b % 16 < 16 := by omega
  have hb2 : 16 * (b / 16) + b % 16 = b := by omega
  simp only [escByte, List.cons_append, List.nil_append]
  rw [unescape_step (by simp)]
  simp [unescapeOne, hexVal_hexDigitChar h1, hexVal_hexDigitChar h2, hb2]

theorem unescape_escBytes {bs : List Nat} (hb : ∀ b ∈ bs, b < 256) (t : List Char) :
    unescape (escBytes bs ++ t) = bs ++ unescape t := by
  induction bs with
  | nil => simp [escBytes]
  | cons b bs ih =>
    simp only [escBytes, List.append_assoc, List.cons_append]
    rw [unescape_escByte (hb b (List.mem_cons_self b bs)) _]
    rw [ih (fun x hx => hb x (List.mem_cons_of_mem b hx))]

theorem utf8Bytes_lt_256 {n : Nat} (hn : n < 0x110000) : ∀ b ∈ utf8Bytes n, b < 256 := by
  intro b hb
  simp only [utf8Bytes] at hb
  split at hb
  · simp at hb; omega
  · split at hb
    · simp at hb
      have : n / 0x40 < 0x20 := by omega
      have : n % 0x40 < 0x40 := by omega
      omega
    · split at hb
      · simp at hb
        have : n / 0x1000 < 0x10 := by omega
        have : n / 0x40 % 0x40 < 0x40 := by omega
        have : n % 0x40 < 0x40 := by omega
        omega
      · simp at hb
        have : n / 0x40000 < 0x8 := by omega
        have : n / 0x1000 % 0x40 < 0x40 := by omega
        have : n / 0x40 % 0x40 < 0x40 := by omega
        have : n % 0x40 < 0x40 := by omega
        omega

theorem char_toNat_lt (c : Char) : c.toNat < 0x110000 := by
  have h := c.valid
  rcases h with h | h
  · exact Nat.lt_trans h (by norm_num)
  · exact h.2

theorem decodeOne_shrink (b : Nat) (bs : List Nat) :
    (decodeOne (b :: bs)).2.length ≤ bs.length := by
  simp only [decodeOne]
  split
  · simp
  · split
    · split <;> simp
    · split
      · split <;> simp <;> omega
      · split <;> simp <;> omega

theorem utf8DecodeAux_fuel : ∀ (fuel1 fuel2 : Nat) (l : List Nat), l.length ≤ fuel1 →
    l.length ≤ fuel2 → utf8DecodeAux fuel1 l = utf8DecodeAux fuel2 l := by
  intro fuel1
  induction fuel1 with
  | zero =>
    intro fuel2 l h1 _
    have : l = [] := List.length_eq_zero.mp (Nat.le_zero.mp h1)
    subst this
    cases fuel2 <;> rfl
  | succ m ih =>
    intro fuel2 l h1 h2
    cases l with
    | nil => cases fuel2 <;> rfl
    | cons b bs =>
      cases fuel2 with
      | zero => simp at h2
      | succ k =>
        have hs := decodeOne_shrink b bs
        simp only [List.length_cons] at h1 h2
        simp only [utf8DecodeAux]
        rw [ih k _ (by omega) (by omega)]

/-- The second pass consumes one decoded character and continues. -/
theorem utf8Decode_step {l : List Nat} (hne : l ≠ []) :
    utf8DecodeBytes l = (decodeOne l).1 :: utf8DecodeBytes (decodeOne l).2 := by
  cases l with
  | nil => exact absurd rfl hne
  | cons b bs =>
    have hs := decodeOne_shrink b bs
    simp only [utf8DecodeBytes, List.length_cons, utf8DecodeAux]
    rw [utf8DecodeAux_fuel bs.length (decodeOne (b :: bs)).2.length _ hs le_rfl]

theorem utf8Bytes_ne_nil (n : Nat) : utf8Bytes n ≠ [] := by
  simp only [utf8Bytes]
  split
  · simp
  · split
    · simp
    · split <;> simp

theorem decodeOne_utf8Bytes (n : Nat) (hn : n < 0x110000) (bs : List Nat) :
    decodeOne (utf8Bytes n ++ bs) = (Char.ofNat n, bs) := by
  by_cases h1 : n < 0x80
  · rw [utf8Bytes, if_pos h1]
    simp only [List.cons_append, List.nil_append, decodeOne]
    rw [if_pos h1]
  · by_cases h2 : n < 0x800
    · rw [utf8Bytes, if_neg h1, if_pos h2]
      have hd1 : ¬(0xC0 + n / 0x40 < 0x80) := by omega
      have hd2 : 0xC0 + n / 0x40 < 0xE0 := by omega
      have harith : (0xC0 + n / 0x40 - 0xC0) * 0x40 + (0x80 + n % 0x40 - 0x80) = n := by omega
      simp only [List.cons_append, List.nil_append, decodeOne]
      rw [if_neg hd1, if_pos hd2]
      show (Char.ofNat ((0xC0 + n / 0x40 - 0xC0) * 0x40 + (0x80 + n % 0x40 - 0x80)), bs) = _
      rw [harith]
    · by_cases h3 : n < 0x10000
      · rw [utf8Bytes, if_neg h1, if_neg h2, if_pos h3]
        have hd1 : ¬(0xE0 + n / 0x1000 < 0x80) := by omega
        have hd2 : ¬(0xE0 + n / 0x1000 < 0xE0) := by omega
        have hd3 : 0xE0 + n / 0x1000 < 0xF0 := by omega
        have harith : (0xE0 + n / 0x1000 - 0xE0) * 0x1000 + (0x80 + n / 0x40 % 0x40 - 0x80) * 0x40
            + (0x80 + n % 0x40 - 0x80) = n := by omega
        simp only [List.cons_append, List.nil_append, decodeOne]
        rw [if_neg hd1, if_neg hd2, if_pos hd3]
        show (Char.ofNat ((0xE0 + n / 0x1000 - 0xE0) * 0x1000 + (0x80 + n / 0x40 % 0x40 - 0x80)
          * 0x40 + (0x80 + n % 0x40 - 0x80)), bs) = _
        rw [harith]
      · rw [utf8Bytes, if_neg h1, if_neg h2, if_neg h3]
        have hd1 : ¬(0xF0 + n / 0x40000 < 0x80) := by omega
        have hd2 : ¬(0xF0 + n / 0x40000 < 0xE0) := by omega
        have hd3 : ¬(0xF0 + n / 0x40000 < 0xF0) := by omega
        have harith : (0xF0 + n / 0x40000 - 0xF0) * 0x40000 + (0x80 + n / 0x1000 % 0x40 - 0x80)
            * 0x1000 + (0x80 + n / 0x40 % 0x40 - 0x80) * 0x40 + (0x80 + n % 0x40 - 0x80) = n := by
          omega
        simp only [List.cons_append, List.nil_append, decodeOne]
        rw [if_neg hd1, if_neg hd2, if_neg hd3]
        show (Char.ofNat ((0xF0 + n / 0x40000 - 0xF0) * 0x40000 + (0x80 + n / 0x1000 % 0x40 - 0x80)
          * 0x1000 + (0x80 + n / 0x40 % 0x40 - 0x80) * 0x40 + (0x80 + n % 0x40 - 0x80)), bs) = _
        rw [harith]

theorem utf8DecodeBytes_utf8Bytes (c : Char) (bs : List Nat) :
    utf8DecodeBytes (utf8Bytes c.toNat ++ bs) = c :: utf8DecodeBytes bs := by
  rw [utf8Decode_step (by
    intro h
    exact utf8Bytes_ne_nil c.toNat (List.append_eq_nil.mp h).1)]
  rw [decodeOne_utf8Bytes c.toNat (char_toNat_lt c) bs, Char.ofNat_toNat]

theorem isSafeChar_ascii {c : Char} (h : isSafeChar c = true) : c.toNat < 0x80 := by
  simp only [isSafeChar, Bool.or_eq_true, Bool.and_eq_true, decide_eq_true_eq,
    beq_iff_eq] at h
  rcases h with ((((((h | h) | h) | h) | h) | h) | h)
  · omega
  · omega
  · omega
  all_goals (subst h; decide)

theorem isSafeChar_not_special {c : Char} (h : isSafeChar c = true) :
    c ≠ '+' ∧ c ≠ '%' ∧ c ≠ '&' ∧ c ≠ '=' := by
  refine ⟨?_, ?_, ?_, ?_⟩ <;> (intro he; subst he; revert h; decide)

theorem unescape_pencodeChar (c : Char) (t : List Char) :
    unescape (pencodeChar c ++ t) = utf8Bytes c.toNat ++ unescape t := by
  by_cases hs : isSafeChar c
  · have hlt := isSafeChar_ascii hs
    obtain ⟨h1, h2, _, _⟩ := isSafeChar_not_special hs
    rw [pencodeChar, if_pos hs]
    simp only [List.cons_append, List.nil_append]
    rw [unescape_step (by simp)]
    simp only [unescapeOne, if_neg h1, if_neg h2]
    rw [utf8Bytes, if_pos hlt]
    rfl
  · by_cases hsp : c = ' '
    · subst hsp
      rw [pencodeChar, if_neg hs, if_pos rfl]
      simp only [List.cons_append, List.nil_append]
      rw [unescape_step (by simp)]
      simp only [unescapeOne, if_pos rfl]
      rfl
    · rw [pencodeChar, if_neg hs, if_neg hsp]
      exact unescape_escBytes (utf8Bytes_lt_256 (char_toNat_lt c)) t

theorem pdecodeList_pencodeList (cs : List Char) : pdecodeList (pencodeList cs) = cs := by
  induction cs with
  | nil => rfl
  | cons c rest ih =>
    simp only [pencodeList, pdecodeList]
    rw [unescape_pencodeChar, utf8DecodeBytes_utf8Bytes]
    simpa [pdecodeList] using ih

theorem pdecode_pencode (s : String) : pdecode (pencode s) = s := by
  cases s with
  | mk data => simp [pdecode, pencode, pdecodeList_pencodeList]

theorem hexDigitChar_not_special (n : Nat) :
    hexDigitChar n ≠ '&' ∧ hexDigitChar n ≠ '=' ∧ hexDigitChar n ≠ '\n' := by
  by_cases h : n < 16
  · interval_cases n <;> decide
  · have hlen : ("0123456789ABCDEF".data).length = 16 := by decide
    have h0 : hexDigitChar n = '0' := by
      simp only [hexDigitChar]
      exact List.getD_eq_default _ _ (by rw [hlen]; omega)
    rw [h0]
    decide

theorem mem_pencodeChar_not_special {c x : Char} (h : x ∈ pencodeChar c) :
    x ≠ '&' ∧ x ≠ '=' ∧ x ≠ '\n' := by
  simp only [pencodeChar] at h
  split at h
  · rename_i hs
    simp at h
    subst h
    obtain ⟨_, _, h3, h4⟩ := isSafeChar_not_special hs
    refine ⟨h3, h4, ?_⟩
    intro he; subst he; revert hs; decide
  · split at h
    · simp at h
      subst h
      decide
    · generalize utf8Bytes c.toNat = bs at h
      induction bs with
      | nil => simp [escBytes] at h
      | cons b rest ih =>
        simp only [escBytes, escByte, List.cons_append, List.nil_append,
          List.mem_cons] at h
        rcases h with h | h | h | h
        · subst h; decide
        · subst h; exact hexDigitChar_not_special _
        · subst h; exact hexDigitChar_not_special _
        · exact ih h

theorem not_mem_pencodeList (sp : Char) (hsp : sp = '&' ∨ sp = '=' ∨ sp = '\n')
    (cs : List Char) : sp ∉ pencodeList cs := by
  induction cs with
  | nil => simp [pencodeList]
  | cons c rest ih =>
    simp only [pencodeList, List.mem_append]
    rintro (h | h)
    · obtain ⟨h1, h2, h3⟩ := mem_pencodeChar_not_special h
      rcases hsp with he | he | he <;> (subst he)
      · exact h1 rfl
      · exact h2 rfl
      · exact h3 rfl
    · exact ih h

/-! ## Error taxonomy (`Error` in `lib.rs`); the payloads carried by the
Rust variants (source errors from the underlying crates) are dropped, only
the variant tags matter to the control flow. -/

inductive Error where
  | Reqwest
  | BadUrl
  | ParseQueryString
  | AuthenticationFailed
  | ParseSteamId
  | Deserialize
  | Serialize
  | BuildHttpStruct
deriving DecidableEq, Repr

/-- The identity provider's fixed login endpoint (`STEAM_URL`). -/
def STEAM_URL : String := "https://steamcommunity.com/openid/login"

/-! ## Response-body validity: the `is_valid` scan of the two revisions.

`verifyResponseValid` is the scan inside `Verifier::verify_response`
(`verifier.rs`): split the body on `\n`, keep lines split by the FIRST
`:` (`splitn(2, ':')`), accept when some pair is exactly
(`is_valid`, `true`).

`parseVerifyValid` is the scan inside `parse_verify_response` (`lib.rs`):
split each line on EVERY `:` (`split(':')`) and take the first two pieces. -/

def verifyResponseValid (response_body : String) : Bool :=
  ((splitChar '\n' response_body.data).filterMap (fun line => splitFirstAt ':' line)).any
    (fun p => p.1 == "is_valid".data && p.2 == "true".data)

/-- The (key, value) extraction of the older scan: `split(':')` with
`pair.next()` twice, lines with fewer than two pieces discarded. -/
def pairKV (line : List Char) : Option (List Char × List Char) :=
  match splitChar ':' line with
  | [] => none
  | [_] => none
  | k :: v :: _ => some (k, v)

def parseVerifyValid (response : String) : Bool :=
  ((splitChar '\n' response.data).filterMap pairKV).any
    (fun p => p.1 == "is_valid".data && p.2 == "true".data)

/-! ## Model of the external `url` crate: `Url::parse`, `path_segments`,
`join`. Restricted to hierarchical `scheme://host/path?query` URLs (the
only kind this crate exchanges); ports are kept inside the host string,
fragments and percent-normalization are not modelled. -/

structure Url where
  scheme : String
  host : String
  path : String
  query : Option String
deriving DecidableEq, Repr

def isSchemeChar (c : Char) : Bool := c.isAlphanum || c == '+' || c == '-' || c == '.'

/-- Model of `url::Url::parse`: requires `scheme://authority` with a
nonempty alphabetic-led scheme and nonempty authority; the path is the
remainder up to `?`, defaulted to `/`. -/
def parseUrl (s : String) : Option Url :=
  match splitFirstAt ':' s.data with
  | none => none
  | some (schemeCs, rest) =>
    match schemeCs with
    | [] => none
    | c0 :: _ =>
      if c0.isAlpha && schemeCs.all isSchemeChar then
        match rest with
        | '/' :: '/' :: rest2 =>
          let auth := rest2.takeWhile (fun c => !(c == '/' || c == '?'))
          let pq := rest2.dropWhile (fun c => !(c == '/' || c == '?'))
          if auth.isEmpty then none
          else
            let pAndQ : List Char × Option String :=
              match splitFirstAt '?' pq with
              | none => (pq, none)
              | some (p, q) => (p, some (String.mk q))
            some ⟨String.mk schemeCs, String.mk auth,
              String.mk (if pAndQ.1.isEmpty then ['/'] else pAndQ.1), pAndQ.2⟩
        | _ => none
      else none

/-- Model of `Url::path_segments`: in this hierarchical model every parsed
URL has segments (the path always starts with `/`); the `Option` mirrors
the crate's signature, whose `None` arises only for cannot-be-a-base URLs
that `parseUrl` already rejects. -/
def Url.pathSegments (u : Url) : Option (List String) :=
  some ((splitChar '/' (u.path.data.drop 1)).map String.mk)

/-- Model of `Url::as_str`. -/
def Url.render (u : Url) : String :=
  String.mk (u.scheme.data ++ "://".data ++ u.host.data ++ u.path.data ++
    (match u.query with
     | none => []
     | some q => '?' :: q.data))

/-- Whether a join reference begins with a syntactically valid scheme
followed by `:` (and so must parse as an absolute URL or fail). -/
def looksAbsolute (ref : String) : Bool :=
  match splitFirstAt ':' ref.data with
  | none => false
  | some (schemeCs, _) =>
    match schemeCs with
    | [] => false
    | c0 :: _ => c0.isAlpha && schemeCs.all isSchemeChar

/-- Base directory of a path: everything up to and including the last `/`. -/
def dirOf (path : List Char) : List Char :=
  (path.reverse.dropWhile (fun c => !(c == '/'))).reverse

/-- Model of `Url::join` (RFC 3986 relative resolution) for the common
reference forms: absolute URL, absolute path, relative path. -/
def Url.join (base : Url) (ref : String) : Option Url :=
  if looksAbsolute ref then parseUrl ref
  else
    let pAndQ : List Char × Option String :=
      match splitFirstAt '?' ref.data with
      | none => (ref.data, none)
      | some (p, q) => (p, some (String.mk q))
    match pAndQ.1 with
    | [] => some { base with query := pAndQ.2 }
    | '/' :: _ => some { base with path := String.mk pAndQ.1, query := pAndQ.2 }
    | _ =>
      some { base with path := String.mk (dirOf base.path.data ++ pAndQ.1), query := pAndQ.2 }

/-- Model of Rust `str::parse::<u64>`: optional leading `+`, then one or
more ASCII digits, value below `2^64`. -/
def parseU64 (s : String) : Option Nat :=
  let t := if s.data.headD ' ' == '+' then s.data.tail else s.data
  if t.isEmpty then none
  else if t.all (fun c => c.isDigit) then
    let n := t.foldl (fun acc c => acc * 10 + (c.toNat - 48)) 0
    if n < 2 ^ 64 then some n else none
  else none

/-- The claimed-identity extraction chain shared by `from_querystring`
(`verifier.rs`) and `parse_verify_response` (`lib.rs`): parse the claimed
id as a URL, take its final path segment, parse it as a `u64`; every
failure is `ParseSteamId`. -/
def extractSteamId (claimed_id : String) : Except Error Nat :=
  match parseUrl claimed_id with
  | none => .error .ParseSteamId
  | some url =>
    match url.pathSegments with
    | none => .error .ParseSteamId
    | some segments =>
      match segments.getLast? with
      | none => .error .ParseSteamId
      | some id_segment =>
        match parseU64 id_segment with
        | none => .error .ParseSteamId
        | some claimed => .ok claimed

/-! ## The callback payload (`SteamAuthResponse`) and the urlencoded form
codec applied to it (model of `serde_urlencoded` on this struct). -/

structure SteamAuthResponse where
  ns : String
  mode : String
  op_endpoint : String
  claimed_id : String
  identity : Option String
  return_to : String
  response_nonce : String
  invalidate_handle : Option String
  assoc_handle : String
  signed : String
  sig : String
deriving DecidableEq, Repr

/-- The struct's fields in declaration order under their `serde(rename)`
keys, with absent optional fields omitted — the order and selection
`serde_urlencoded` serializes. -/
def fieldPairs (r : SteamAuthResponse) : List (String × String) :=
  [("openid.ns", r.ns), ("openid.mode", r.mode), ("openid.op_endpoint", r.op_endpoint),
   ("openid.claimed_id", r.claimed_id)]
  ++ (match r.identity with | none => [] | some v => [("openid.identity", v)])
  ++ [("openid.return_to", r.return_to), ("openid.response_nonce", r.response_nonce)]
  ++ (match r.invalidate_handle with | none => [] | some v => [("openid.invalidate_handle", v)])
  ++ [("openid.assoc_handle", r.assoc_handle), ("openid.signed", r.signed),
      ("openid.sig", r.sig)]

def encPair (k v : String) : List Char := pencodeList k.data ++ '=' :: pencodeList v.data

/-- Model of `serde_urlencoded::to_string` on a `SteamAuthResponse`. -/
def encodeForm (r : SteamAuthResponse) : String :=
  String.mk (joinSep '&' ((fieldPairs r).map fun p => encPair p.1 p.2))

/-- Model of `form_urlencoded` pair parsing: split on `&`, skip empty
pieces, split each piece on the first `=` (no `=` means empty value),
percent-decode key and value. -/
def qsPairs (qs : String) : List (String × String) :=
  (splitChar '&' qs.data).filterMap fun piece =>
    if piece.isEmpty then none
    else
      match splitFirstAt '=' piece with
      | none => some (String.mk (pdecodeList piece), "")
      | some (k, v) => some (String.mk (pdecodeList k), String.mk (pdecodeList v))

def lookup1 (ps : List (String × String)) (k : String) : Option String :=
  (ps.find? (fun p => p.1 == k)).map (fun p => p.2)

def isDupKey (ps : List (String × String)) (k : String) : Bool :=
  2 ≤ (ps.filter (fun p => p.1 == k)).length

def knownKeys : List String :=
  ["openid.ns", "openid.mode", "openid.op_endpoint", "openid.claimed_id", "openid.identity",
   "openid.return_to", "openid.response_nonce", "openid.invalidate_handle",
   "openid.assoc_handle", "openid.signed", "openid.sig"]

def requireField (ps : List (String × String)) (k : String) : Except Error String :=
  match lookup1 ps k with
  | some v => .ok v
  | none => .error .Deserialize

/-- Model of the `serde` struct deserializer: duplicate known fields and
missing required fields are `Deserialize` errors, unknown keys are
ignored, optional fields may be absent. -/
def buildForm (ps : List (String × String)) : Except Error SteamAuthResponse :=
  if knownKeys.any (isDupKey ps) then .error .Deserialize
  else
    match requireField ps "openid.ns", requireField ps "openid.mode",
      requireField ps "openid.op_endpoint", requireField ps "openid.claimed_id",
      requireField ps "openid.return_to", requireField ps "openid.response_nonce",
      requireField ps "openid.assoc_handle", requireField ps "openid.signed",
      requireField ps "openid.sig" with
    | .ok ns, .ok mode, .ok op_endpoint, .ok claimed_id, .ok return_to, .ok response_nonce,
      .ok assoc_handle, .ok signed, .ok sig =>
      .ok ⟨ns, mode, op_endpoint, claimed_id, lookup1 ps "openid.identity", return_to,
        response_nonce, lookup1 ps "openid.invalidate_handle", assoc_handle, signed, sig⟩
    | _, _, _, _, _, _, _, _, _ => .error .Deserialize

/-- Model of `serde_urlencoded::from_str` into a `SteamAuthResponse`. -/
def deserializeForm (qs : String) : Except Error SteamAuthResponse :=
  buildForm (qsPairs qs)

/-! ## Verifier (`verifier.rs`) -/

structure Verifier where
  claimed_id : Nat
deriving DecidableEq, Repr

/-- The outbound re-verification request (`http::Request<Vec<u8>>` with
method, URI, headers and body). -/
structure HttpRequest where
  method : String
  uri : String
  headers : List (String × String)
  body : String
deriving DecidableEq, Repr

/-- `Verifier::from_querystring`: deserialize the callback, overwrite the
mode with `check_authentication`, extract the candidate identity from
`claimed_id`, re-serialize, build the POST request. -/
def from_querystring (qs : String) : Except Error (HttpRequest × Verifier) :=
  match deserializeForm qs with
  | .error e => .error e
  | .ok form0 =>
    let form := { form0 with mode := "check_authentication" }
    match extractSteamId form.claimed_id with
    | .error e => .error e
    | .ok claimed_id =>
      .ok (⟨"POST", STEAM_URL, [("Content-Type", "application/x-www-form-urlencoded")],
        encodeForm form⟩, ⟨claimed_id⟩)

/-- `Verifier::verify_response`: accept exactly when the `is_valid` scan
finds a (`is_valid`, `true`) line, returning the stored candidate. -/
def Verifier.verify_response (v : Verifier) (response_body : String) : Except Error Nat :=
  if verifyResponseValid response_body then .ok v.claimed_id
  else .error .AuthenticationFailed

/-- `parse_verify_response` (`lib.rs`): the older revision — validity scan
with `split(':')`, then the same claimed-id extraction chain. -/
def parse_verify_response (claimed_id : String) (response : String) : Except Error Nat :=
  if !(parseVerifyValid response) then .error .AuthenticationFailed
  else extractSteamId claimed_id

/-! ## Redirector (`redirector.rs`) -/

structure SteamAuthRequest where
  ns : String
  identity : String
  claimed_id : String
  mode : String
  return_to : String
  realm : String
deriving DecidableEq, Repr

/-- `SteamAuthRequest::new`: the four protocol constants plus realm and
return-to. -/
def SteamAuthRequest.new (site_url return_to_joined : String) : SteamAuthRequest :=
  ⟨"http://specs.openid.net/auth/2.0", "http://specs.openid.net/auth/2.0/identifier_select",
   "http://specs.openid.net/auth/2.0/identifier_select", "checkid_setup",
   return_to_joined, site_url⟩

/-- The six fields in declaration order under their `serde(rename)` keys. -/
def authRequestPairs (r : SteamAuthRequest) : List (String × String) :=
  [("openid.ns", r.ns), ("openid.identity", r.identity), ("openid.claimed_id", r.claimed_id),
   ("openid.mode", r.mode), ("openid.return_to", r.return_to), ("openid.realm", r.realm)]

/-- Model of `serde_urlencoded::to_string` on a `SteamAuthRequest`. -/
def encodeAuthRequest (r : SteamAuthRequest) : String :=
  String.mk (joinSep '&' ((authRequestPairs r).map fun p => encPair p.1 p.2))

structure Redirector where
  url : Url
deriving DecidableEq, Repr

/-- `Redirector::new`: parse the site URL, join the return path onto it,
encode the `SteamAuthRequest`, attach it as the query of the fixed
endpoint. -/
def Redirector.new (site_url return_url : String) : Except Error Redirector :=
  match parseUrl site_url with
  | none => .error .BadUrl
  | some base =>
    match base.join return_url with
    | none => .error .BadUrl
    | some joined =>
      let openid := SteamAuthRequest.new site_url joined.render
      let qs := encodeAuthRequest openid
      match parseUrl STEAM_URL with
      | none => .error .BadUrl
      | some u => .ok ⟨{ u with query := some qs }⟩

/-- The parsed form of the fixed endpoint. -/
def steamBaseUrl : Url := ⟨"https", "steamcommunity.com", "/openid/login", none⟩

/-! ## General-purpose helper lemmas -/

theorem perm_any_eq {α} {l1 l2 : List α} (h : l1.Perm l2) (p : α → Bool) :
    l1.any p = l2.any p := by
  cases hb : l2.any p with
  | true =>
    rw [List.any_eq_true] at hb ⊢
    obtain ⟨x, hx, hpx⟩ := hb
    exact ⟨x, h.mem_iff.mpr hx, hpx⟩
  | false =>
    rw [List.any_eq_false] at hb ⊢
    intro x hx
    exact hb x (h.mem_iff.mp hx)

theorem filterMap_eq_self_of {α} {l : List α} {f : α → Option α}
    (h : ∀ x ∈ l, f x = some x) : l.filterMap f = l := by
  induction l with
  | nil => rfl
  | cons a t ih =>
    rw [List.filterMap_cons, h a (List.mem_cons_self a t),
      ih (fun x hx => h x (List.mem_cons_of_mem a hx))]

/-! ## Characterizations of the two validity scans -/

/-- The new scan's line test holds exactly on the literal line
`is_valid:true`. -/
theorem splitFirstAt_isvalid_iff (l : List Char) :
    splitFirstAt ':' l = some ("is_valid".data, "true".data) ↔ l = "is_valid:true".data := by
  constructor
  · intro h
    obtain ⟨hl, _⟩ := splitFirstAt_eq_some ':' h
    exact hl
  · intro h
    subst h
    decide

theorem verifyResponseValid_iff (body : String) :
    verifyResponseValid body = true ↔
      ∃ l ∈ splitChar '\n' body.data,
        splitFirstAt ':' l = some ("is_valid".data, "true".data) := by
  simp only [verifyResponseValid, List.any_eq_true, List.mem_filterMap]
  constructor
  · rintro ⟨⟨p1, p2⟩, ⟨l, hl, hf⟩, hp⟩
    simp only [Bool.and_eq_true, beq_iff_eq] at hp
    obtain ⟨h1, h2⟩ := hp
    subst h1
    subst h2
    exact ⟨l, hl, hf⟩
  · rintro ⟨l, hl, hf⟩
    exact ⟨("is_valid".data, "true".data), ⟨l, hl, hf⟩, by simp⟩

theorem parseVerifyValid_iff (response : String) :
    parseVerifyValid response = true ↔
      ∃ l ∈ splitChar '\n' response.data,
        pairKV l = some ("is_valid".data, "true".data) := by
  simp only [parseVerifyValid, List.any_eq_true, List.mem_filterMap]
  constructor
  · rintro ⟨⟨p1, p2⟩, ⟨l, hl, hf⟩, hp⟩
    simp only [Bool.and_eq_true, beq_iff_eq] at hp
    obtain ⟨h1, h2⟩ := hp
    subst h1
    subst h2
    exact ⟨l, hl, hf⟩
  · rintro ⟨l, hl, hf⟩
    exact ⟨("is_valid".data, "true".data), ⟨l, hl, hf⟩, by simp⟩

/-- The old scan's line test holds on `is_valid:true` and on any line
beginning with `is_valid:true:`. -/
theorem pairKV_isvalid_iff (l : List Char) :
    pairKV l = some ("is_valid".data, "true".data) ↔
      (l = "is_valid:true".data ∨ l.take 14 = "is_valid:true:".data) := by
  constructor
  · intro h
    rw [pairKV] at h
    split at h
    · exact Option.noConfusion h
    · exact Option.noConfusion h
    · rename_i k v rs hsc
      simp only [Option.some.injEq, Prod.mk.injEq] at h
      obtain ⟨h1, h2⟩ := h
      subst h1
      subst h2
      have hl := joinSep_splitChar ':' l
      rw [hsc] at hl
      cases rs with
      | nil =>
        left
        rw [← hl]
        rfl
      | cons r rs2 =>
        right
        have hl2 : l = "is_valid:true:".data ++ joinSep ':' (r :: rs2) := by
          rw [← hl]
          rfl
        rw [hl2]
        have h14 : (14 : Nat) = ("is_valid:true:".data).length := by decide
        rw [h14, List.take_left]
  · rintro (h | h)
    · subst h
      decide
    · have hl : l = "is_valid:true:".data ++ l.drop 14 := by
        conv_lhs => rw [← List.take_append_drop 14 l]
        rw [h]
      rw [hl]
      have hsplit : splitChar ':' ("is_valid:true:".data ++ l.drop 14) =
          "is_valid".data :: "true".data :: splitChar ':' (l.drop 14) := by
        have e1 : "is_valid:true:".data ++ l.drop 14 =
            "is_valid".data ++ ':' :: ("true".data ++ ':' :: l.drop 14) := by rfl
        rw [e1, splitChar_append ':' _ _ (by decide), splitChar_append ':' _ _ (by decide)]
      rw [pairKV, hsplit]

/-- The old scan accepts whenever the new one does. -/
theorem pairKV_of_splitFirstAt {l : List Char}
    (h : splitFirstAt ':' l = some ("is_valid".data, "true".data)) :
    pairKV l = some ("is_valid".data, "true".data) := by
  rw [splitFirstAt_isvalid_iff] at h
  exact (pairKV_isvalid_iff l).mpr (Or.inl h)

/-! ## The encode/decode round trip on field-pair lists -/

theorem string_mk_data (s : String) : String.mk s.data = s := rfl

theorem encPair_no_amp (k v : String) : '&' ∉ encPair k v := by
  simp only [encPair, List.mem_append, List.mem_cons]
  rintro (h | h | h)
  · exact not_mem_pencodeList '&' (Or.inl rfl) _ h
  · exact absurd h (by decide)
  · exact not_mem_pencodeList '&' (Or.inl rfl) _ h

theorem encPair_ne_nil (k v : String) : encPair k v ≠ [] := by
  simp only [encPair]
  intro h
  exact absurd (List.append_eq_nil.mp h).2 (by simp)

theorem qsPairs_piece (k v : String) :
    (if (encPair k v).isEmpty then none
     else
       match splitFirstAt '=' (encPair k v) with
       | none => some (String.mk (pdecodeList (encPair k v)), "")
       | some (a, b) => some (String.mk (pdecodeList a), String.mk (pdecodeList b))) =
      some (k, v) := by
  rw [if_neg (by simp [List.isEmpty_iff, encPair_ne_nil k v])]
  rw [encPair, splitFirstAt_append '=' _ _ (not_mem_pencodeList '=' (Or.inr (Or.inl rfl)) _)]
  simp only [pdecodeList_pencodeList, string_mk_data]

theorem qsPairs_encode (kvs : List (String × String)) (hne : kvs ≠ []) :
    qsPairs (String.mk (joinSep '&' (kvs.map fun p => encPair p.1 p.2))) = kvs := by
  simp only [qsPairs, string_mk_data]
  rw [splitChar_joinSep '&' _ (by simpa using hne)
    (by
      intro p hp
      obtain ⟨q, _, hq⟩ := List.mem_map.mp hp
      rw [← hq]
      exact encPair_no_amp q.1 q.2)]
  rw [List.filterMap_map]
  apply filterMap_eq_self_of
  intro ⟨k, v⟩ _
  exact qsPairs_piece k v

theorem buildForm_fieldPairs (r : SteamAuthResponse) : buildForm (fieldPairs r) = .ok r := by
  obtain ⟨ns, mode, op_endpoint, claimed_id, identity, return_to, response_nonce,
    invalidate_handle, assoc_handle, signed, sig⟩ := r
  cases identity <;> cases invalidate_handle <;> rfl

theorem fieldPairs_ne_nil (r : SteamAuthResponse) : fieldPairs r ≠ [] := by
  simp [fieldPairs]

/-! ## Support lemmas about the Verifier pipeline -/

/-- The failure cases of the claimed-identity extraction chain, as the
specification enumerates them. -/
def steamIdUnextractable (c : String) : Prop :=
  parseUrl c = none ∨
  (∃ u, parseUrl c = some u ∧
    (u.pathSegments = none ∨
      (∃ segs, u.pathSegments = some segs ∧
        (segs.getLast? = none ∨
          (∃ seg, segs.getLast? = some seg ∧ parseU64 seg = none)))))

theorem extractSteamId_error_iff (c : String) :
    extractSteamId c = .error .ParseSteamId ↔ steamIdUnextractable c := by
  rw [extractSteamId, steamIdUnextractable]
  cases hp : parseUrl c with
  | none => simp
  | some u =>
    simp only [Option.some.injEq, reduceCtorEq, false_or]
    cases hs : u.pathSegments with
    | none =>
      constructor
      · intro _
        exact ⟨u, rfl, Or.inl hs⟩
      · intro _
        rfl
    | some segs =>
      cases hl : segs.getLast? with
      | none =>
        constructor
        · intro _
          exact ⟨u, rfl, Or.inr ⟨segs, hs, Or.inl hl⟩⟩
        · intro _
          simp only [hl]
      | some seg =>
        cases hu : parseU64 seg with
        | none =>
          constructor
          · intro _
            exact ⟨u, rfl, Or.inr ⟨segs, hs, Or.inr ⟨seg, hl, hu⟩⟩⟩
          · intro _
            simp only [hl, hu]
        | some idv =>
          simp only [hl, hu]
          constructor
          · intro h
            exact Except.noConfusion h
          · rintro ⟨u2, hu2, h⟩
            subst hu2
            rw [hs] at h
            rcases h with h | ⟨segs2, hs2, h⟩
            · exact Option.noConfusion h
            · injection hs2 with he
              subst he
              rw [hl] at h
              rcases h with h | ⟨seg2, hl2, h⟩
              · exact Option.noConfusion h
              · injection hl2 with he2
                subst he2
                rw [hu] at h
                exact Option.noConfusion h

/-- Unfolding of `from_querystring` once the deserialization step is
known to succeed. -/
theorem from_querystring_of_deserialize {qs : String} {form : SteamAuthResponse}
    (h : deserializeForm qs = .ok form) :
    from_querystring qs =
      match extractSteamId form.claimed_id with
      | .error e => .error e
      | .ok claimed_id =>
        .ok (⟨"POST", STEAM_URL, [("Content-Type", "application/x-www-form-urlencoded")],
          encodeForm { form with mode := "check_authentication" }⟩, ⟨claimed_id⟩) := by
  rw [from_querystring, h]

/-! ## Claim theorems -/

/-- C1: for every Verifier and response body, `verify_response` returns
`Ok` with the candidate identity exactly when some line of the body
(split on `\n`, each line split into key and value at the first `:`) has
key `is_valid` and value `true`; otherwise — including the empty body,
`is_valid:false`, and bodies with no `is_valid` key — it returns
`AuthenticationFailed`; and the decision is invariant under permutation
of the lines. -/
theorem verify_response_ok_iff_is_valid_line : ∀ (v : Verifier) (body : String),
    (v.verify_response body = .ok v.claimed_id ↔
      ∃ l ∈ splitChar '\n' body.data,
        splitFirstAt ':' l = some ("is_valid".data, "true".data)) ∧
    ((¬ ∃ l ∈ splitChar '\n' body.data,
        splitFirstAt ':' l = some ("is_valid".data, "true".data)) →
      v.verify_response body = .error .AuthenticationFailed) ∧
    v.verify_response "" = .error .AuthenticationFailed ∧
    v.verify_response "is_valid:false" = .error .AuthenticationFailed ∧
    ∀ body2 : String, (splitChar '\n' body.data).Perm (splitChar '\n' body2.data) →
      v.verify_response body = v.verify_response body2 := by
  intro v body
  refine ⟨⟨?_, ?_⟩, ?_, ?_, ?_, ?_⟩
  · intro h
    cases hval : verifyResponseValid body with
    | true => exact (verifyResponseValid_iff body).mp hval
    | false =>
      rw [Verifier.verify_response, hval] at h
      simp at h
  · intro hex
    rw [Verifier.verify_response, (verifyResponseValid_iff body).mpr hex]
    rfl
  · intro hnex
    have hval : verifyResponseValid body = false := by
      cases hval : verifyResponseValid body with
      | true => exact absurd ((verifyResponseValid_iff body).mp hval) hnex
      | false => rfl
    rw [Verifier.verify_response, hval]
    rfl
  · rfl
  · rfl
  · intro body2 hperm
    have hval : verifyResponseValid body = verifyResponseValid body2 := by
      rw [verifyResponseValid, verifyResponseValid]
      exact perm_any_eq (hperm.filterMap _) _
    rw [Verifier.verify_response, Verifier.verify_response, hval]

/-- C1 witness: the theorem applied at concrete inputs. -/
theorem verify_response_ok_iff_is_valid_line_witness :
    Verifier.verify_response ⟨7⟩ "is_valid:true" = .ok 7 ∧
    Verifier.verify_response ⟨7⟩ "ns:foo" = .error .AuthenticationFailed ∧
    Verifier.verify_response ⟨7⟩ "is_valid:true\nns:foo" =
      Verifier.verify_response ⟨7⟩ "ns:foo\nis_valid:true" := by
  refine ⟨(verify_response_ok_iff_is_valid_line ⟨7⟩ "is_valid:true").1.mpr (by decide),
    (verify_response_ok_iff_is_valid_line ⟨7⟩ "ns:foo").2.1 (by decide),
    (verify_response_ok_iff_is_valid_line ⟨7⟩ "is_valid:true\nns:foo").2.2.2.2
      "ns:foo\nis_valid:true" ?_⟩
  have h : splitChar '\n' ("is_valid:true\nns:foo").data =
      ["is_valid:true".data, "ns:foo".data] := by decide
  have h2 : splitChar '\n' ("ns:foo\nis_valid:true").data =
      ["ns:foo".data, "is_valid:true".data] := by decide
  rw [h, h2]
  exact List.Perm.swap _ _ _

/-- C2: each line is split at the FIRST `:` only, so the value is the
entire remainder of the line (and may contain colons), a line with no `:`
is discarded (yields no pair), and the body
`is_valid:true\nextra:a:b:c` is accepted. -/
theorem verify_response_first_colon_split : ∀ (id : Nat) (line k v : List Char),
    (splitFirstAt ':' line = some (k, v) → line = k ++ ':' :: v ∧ ':' ∉ k) ∧
    (':' ∉ line → splitFirstAt ':' line = none) ∧
    Verifier.verify_response ⟨id⟩ "is_valid:true\nextra:a:b:c" = .ok id := by
  intro id line k v
  refine ⟨fun h => splitFirstAt_eq_some ':' h, fun h => (splitFirstAt_eq_none_iff ':' line).mpr h,
    ?_⟩
  rw [Verifier.verify_response,
    show verifyResponseValid "is_valid:true\nextra:a:b:c" = true from rfl]
  rfl

/-- C2 witness: the theorem applied at concrete inputs. -/
theorem verify_response_first_colon_split_witness :
    splitFirstAt ':' ("extra:a:b:c").data = some ("extra".data, "a:b:c".data) ∧
    ("extra:a:b:c").data = "extra".data ++ ':' :: "a:b:c".data ∧
    splitFirstAt ':' ("noseparator").data = none ∧
    Verifier.verify_response ⟨9⟩ "is_valid:true\nextra:a:b:c" = .ok 9 := by
  refine ⟨by decide,
    ((verify_response_first_colon_split 9 ("extra:a:b:c").data "extra".data "a:b:c".data).1
      (by decide)).1,
    (verify_response_first_colon_split 9 ("noseparator").data [] []).2.1 (by decide),
    (verify_response_first_colon_split 9 [] [] []).2.2⟩

/-- C7: serializing a `SteamAuthResponse` to a urlencoded query string and
deserializing it back restores the value field for field, including the
optional `identity` and `invalidate_handle` fields whether present or
absent. -/
theorem steam_auth_response_roundtrip (r : SteamAuthResponse) :
    deserializeForm (encodeForm r) = .ok r := by
  rw [deserializeForm, encodeForm, qsPairs_encode _ (fieldPairs_ne_nil r),
    buildForm_fieldPairs]

/-- Every error of the extraction chain is `ParseSteamId`. -/
theorem extractSteamId_error_val {c : String} {e : Error}
    (h : extractSteamId c = .error e) : e = .ParseSteamId := by
  rw [extractSteamId] at h
  repeat' split at h
  all_goals first
    | (injection h with he; exact he.symm)
    | exact Except.noConfusion h

/-! ## Concrete sample inputs used by the witnesses -/

def sampleQs : String :=
  "openid.ns=ns&openid.mode=id_res&openid.op_endpoint=ep&openid.claimed_id=https%3A%2F%2Fexample.com%2Fopenid%2Fid%2F76561197960435530&openid.return_to=rt&openid.response_nonce=n&openid.assoc_handle=a&openid.signed=s&openid.sig=g"

def sampleForm : SteamAuthResponse :=
  ⟨"ns", "id_res", "ep", "https://example.com/openid/id/76561197960435530", none, "rt", "n",
   none, "a", "s", "g"⟩

def sampleBody : String :=
  "openid.ns=ns&openid.mode=check_authentication&openid.op_endpoint=ep&openid.claimed_id=https%3A%2F%2Fexample.com%2Fopenid%2Fid%2F76561197960435530&openid.return_to=rt&openid.response_nonce=n&openid.assoc_handle=a&openid.signed=s&openid.sig=g"

def sampleRequest : HttpRequest :=
  ⟨"POST", STEAM_URL, [("Content-Type", "application/x-www-form-urlencoded")], sampleBody⟩

def sampleBadQs : String :=
  "openid.ns=ns&openid.mode=id_res&openid.op_endpoint=ep&openid.claimed_id=https%3A%2F%2Fexample.com%2Fopenid%2Fid%2Fabc&openid.return_to=rt&openid.response_nonce=n&openid.assoc_handle=a&openid.signed=s&openid.sig=g"

def sampleBadForm : SteamAuthResponse :=
  ⟨"ns", "id_res", "ep", "https://example.com/openid/id/abc", none, "rt", "n",
   none, "a", "s", "g"⟩

/-- C3: once the callback deserializes, `from_querystring` fails with
`ParseSteamId` exactly when the claimed id is not a valid URL, has no
path segments, or its final segment does not parse as a `u64`; the
documented example URL extracts `76561197960435530`, and a non-numeric
final segment such as `/id/abc` fails. -/
theorem from_querystring_parse_steam_id : ∀ (qs : String) (form : SteamAuthResponse),
    deserializeForm qs = .ok form →
    ((from_querystring qs = .error .ParseSteamId) ↔ steamIdUnextractable form.claimed_id) ∧
    (form.claimed_id = "https://example.com/openid/id/76561197960435530" →
      ∀ req v, from_querystring qs = .ok (req, v) → v.claimed_id = 76561197960435530) ∧
    (form.claimed_id = "https://example.com/openid/id/abc" →
      from_querystring qs = .error .ParseSteamId) ∧
    extractSteamId "https://example.com/openid/id/76561197960435530" = .ok 76561197960435530 ∧
    extractSteamId "https://example.com/openid/id/abc" = .error .ParseSteamId := by
  intro qs form hdes
  have hf := from_querystring_of_deserialize hdes
  refine ⟨?_, ?_, ?_, rfl, rfl⟩
  · rw [hf]
    cases hext : extractSteamId form.claimed_id with
    | error e =>
      have he : e = .ParseSteamId := extractSteamId_error_val hext
      subst he
      constructor
      · intro _
        exact (extractSteamId_error_iff form.claimed_id).mp hext
      · intro _
        rfl
    | ok idv =>
      constructor
      · intro h
        exact Except.noConfusion h
      · intro hun
        have hc := (extractSteamId_error_iff form.claimed_id).mpr hun
        rw [hext] at hc
        exact Except.noConfusion hc
  · intro hcl req v hok
    rw [hf, hcl,
      show extractSteamId "https://example.com/openid/id/76561197960435530"
        = .ok 76561197960435530 from rfl] at hok
    simp only [Except.ok.injEq, Prod.mk.injEq] at hok
    rw [← hok.2]
  · intro hcl
    rw [hf, hcl,
      show extractSteamId "https://example.com/openid/id/abc" = .error .ParseSteamId from rfl]

set_option maxRecDepth 100000 in
/-- C3 witness: the theorem applied at a concrete accepted query string
whose claimed id ends in the non-numeric segment `abc`. -/
theorem from_querystring_parse_steam_id_witness :
    from_querystring sampleBadQs = .error .ParseSteamId := by
  have h := from_querystring_parse_steam_id sampleBadQs sampleBadForm (by rfl)
  exact h.2.2.1 rfl

/-- C4: for every accepted inbound query string, the outbound POST body is
the re-serialization of the deserialized fields with `openid.mode`
overwritten to `check_authentication` regardless of the inbound mode, and
every other field carried over unchanged; the request is a POST to the
fixed endpoint with the urlencoded content type. -/
theorem from_querystring_mode_overwrite : ∀ (qs : String) (form : SteamAuthResponse)
    (req : HttpRequest) (v : Verifier),
    deserializeForm qs = .ok form → from_querystring qs = .ok (req, v) →
    req.body = encodeForm { form with mode := "check_authentication" } ∧
    ({ form with mode := "check_authentication" } : SteamAuthResponse).mode
      = "check_authentication" ∧
    (({ form with mode := "check_authentication" } : SteamAuthResponse).ns = form.ns ∧
     ({ form with mode := "check_authentication" } : SteamAuthResponse).op_endpoint
       = form.op_endpoint ∧
     ({ form with mode := "check_authentication" } : SteamAuthResponse).claimed_id
       = form.claimed_id ∧
     ({ form with mode := "check_authentication" } : SteamAuthResponse).identity
       = form.identity ∧
     ({ form with mode := "check_authentication" } : SteamAuthResponse).return_to
       = form.return_to ∧
     ({ form with mode := "check_authentication" } : SteamAuthResponse).response_nonce
       = form.response_nonce ∧
     ({ form with mode := "check_authentication" } : SteamAuthResponse).invalidate_handle
       = form.invalidate_handle ∧
     ({ form with mode := "check_authentication" } : SteamAuthResponse).assoc_handle
       = form.assoc_handle ∧
     ({ form with mode := "check_authentication" } : SteamAuthResponse).signed = form.signed ∧
     ({ form with mode := "check_authentication" } : SteamAuthResponse).sig = form.sig) ∧
    (req.method = "POST" ∧ req.uri = STEAM_URL ∧
     req.headers = [("Content-Type", "application/x-www-form-urlencoded")]) := by
  intro qs form req v hdes hok
  rw [from_querystring_of_deserialize hdes] at hok
  cases hext : extractSteamId form.claimed_id with
  | error e =>
    rw [hext] at hok
    exact Except.noConfusion hok
  | ok idv =>
    rw [hext] at hok
    simp only [Except.ok.injEq, Prod.mk.injEq] at hok
    obtain ⟨hreq, _⟩ := hok
    subst hreq
    exact ⟨rfl, rfl, ⟨rfl, rfl, rfl, rfl, rfl, rfl, rfl, rfl, rfl, rfl⟩, rfl, rfl, rfl⟩

set_option maxRecDepth 100000 in
/-- C4 witness: the theorem applied at a concrete accepted query string
(inbound mode `id_res`). -/
theorem from_querystring_mode_overwrite_witness :
    sampleRequest.body = encodeForm { sampleForm with mode := "check_authentication" } ∧
    sampleRequest.method = "POST" := by
  have h := from_querystring_mode_overwrite sampleQs sampleForm sampleRequest
    ⟨76561197960435530⟩ (by rfl) (by rfl)
  exact ⟨h.1, h.2.2.2.1⟩

/-- C8: the identity returned by a successful `verify_response` equals the
candidate extracted from the callback's claimed id, and depends only on
it: any two response bodies containing an `is_valid`/`true` line produce
the same `Ok` value. -/
theorem verify_response_returns_candidate : ∀ (qs : String) (form : SteamAuthResponse)
    (req : HttpRequest) (v : Verifier),
    deserializeForm qs = .ok form → from_querystring qs = .ok (req, v) →
    extractSteamId form.claimed_id = .ok v.claimed_id ∧
    ∀ b1 b2 : String,
      (∃ l ∈ splitChar '\n' b1.data,
        splitFirstAt ':' l = some ("is_valid".data, "true".data)) →
      (∃ l ∈ splitChar '\n' b2.data,
        splitFirstAt ':' l = some ("is_valid".data, "true".data)) →
      v.verify_response b1 = .ok v.claimed_id ∧
      v.verify_response b1 = v.verify_response b2 := by
  intro qs form req v hdes hok
  rw [from_querystring_of_deserialize hdes] at hok
  cases hext : extractSteamId form.claimed_id with
  | error e =>
    rw [hext] at hok
    exact Except.noConfusion hok
  | ok idv =>
    rw [hext] at hok
    simp only [Except.ok.injEq, Prod.mk.injEq] at hok
    obtain ⟨_, hv⟩ := hok
    constructor
    · rw [← hv]
    · intro b1 b2 h1 h2
      have hval1 : verifyResponseValid b1 = true := (verifyResponseValid_iff b1).mpr h1
      have hval2 : verifyResponseValid b2 = true := (verifyResponseValid_iff b2).mpr h2
      constructor
      · rw [Verifier.verify_response, hval1]
        rfl
      · rw [Verifier.verify_response, Verifier.verify_response, hval1, hval2]

set_option maxRecDepth 100000 in
/-- C8 witness: the theorem applied at a concrete accepted query string
and two different confirming bodies. -/
theorem verify_response_returns_candidate_witness :
    Verifier.verify_response ⟨76561197960435530⟩ "is_valid:true\nns:x" = .ok 76561197960435530 ∧
    Verifier.verify_response ⟨76561197960435530⟩ "is_valid:true\nns:x" =
      Verifier.verify_response ⟨76561197960435530⟩ "foo:bar\nis_valid:true" := by
  have h := verify_response_returns_candidate sampleQs sampleForm sampleRequest
    ⟨76561197960435530⟩ (by rfl) (by rfl)
  exact h.2 "is_valid:true\nns:x" "foo:bar\nis_valid:true" (by decide) (by decide)

set_option maxRecDepth 100000 in
/-- C5: whenever `Redirector::new` succeeds, the stored URL is the fixed
endpoint with exactly the six documented query fields: the three protocol
constants, mode `checkid_setup`, realm = the given site URL, and
return-to = the join of the site URL with the return path. -/
theorem redirector_url_fields : ∀ (site ret : String) (r : Redirector),
    Redirector.new site ret = .ok r →
    ∃ base joined, parseUrl site = some base ∧ base.join ret = some joined ∧
      r.url = { steamBaseUrl with
        query := some (encodeAuthRequest (SteamAuthRequest.new site joined.render)) } ∧
      { r.url with query := none } = steamBaseUrl ∧
      ∃ q, r.url.query = some q ∧
        splitChar '&' q.data =
          ["openid.ns=http%3A%2F%2Fspecs.openid.net%2Fauth%2F2.0".data,
           "openid.identity=http%3A%2F%2Fspecs.openid.net%2Fauth%2F2.0%2Fidentifier_select".data,
           "openid.claimed_id=http%3A%2F%2Fspecs.openid.net%2Fauth%2F2.0%2Fidentifier_select".data,
           "openid.mode=checkid_setup".data,
           "openid.return_to=".data ++ pencodeList joined.render.data,
           "openid.realm=".data ++ pencodeList site.data] := by
  intro site ret r h
  rw [Redirector.new] at h
  cases hb : parseUrl site with
  | none =>
    rw [hb] at h
    exact Except.noConfusion h
  | some base =>
    simp only [hb] at h
    cases hj : base.join ret with
    | none =>
      simp only [hj] at h
      exact Except.noConfusion h
    | some joined =>
      simp only [hj, show parseUrl STEAM_URL = some steamBaseUrl from rfl] at h
      injection h with h2
      subst h2
      refine ⟨base, joined, rfl, hj, rfl, rfl,
        encodeAuthRequest (SteamAuthRequest.new site joined.render), rfl, ?_⟩
      rw [encodeAuthRequest, string_mk_data,
        splitChar_joinSep '&' _ (by simp [authRequestPairs])
          (by
            intro p hp
            obtain ⟨q, _, hq⟩ := List.mem_map.mp hp
            rw [← hq]
            exact encPair_no_amp q.1 q.2)]
      rfl

def sampleRedirectQuery : String :=
  "openid.ns=http%3A%2F%2Fspecs.openid.net%2Fauth%2F2.0&openid.identity=http%3A%2F%2Fspecs.openid.net%2Fauth%2F2.0%2Fidentifier_select&openid.claimed_id=http%3A%2F%2Fspecs.openid.net%2Fauth%2F2.0%2Fidentifier_select&openid.mode=checkid_setup&openid.return_to=http%3A%2F%2Flocalhost%3A8080%2Fcallback&openid.realm=http%3A%2F%2Flocalhost%3A8080"

def sampleRedirector : Redirector :=
  ⟨⟨"https", "steamcommunity.com", "/openid/login", some sampleRedirectQuery⟩⟩

set_option maxRecDepth 100000 in
/-- C5 witness: the theorem applied at the concrete pair
(`http://localhost:8080`, `/callback`). -/
theorem redirector_url_fields_witness :
    { sampleRedirector.url with query := none } = steamBaseUrl ∧
    sampleRedirector.url.query = some sampleRedirectQuery := by
  obtain ⟨base, joined, hb, hj, h1, h2, q, hq, hsplit⟩ :=
    redirector_url_fields "http://localhost:8080" "/callback" sampleRedirector (by rfl)
  exact ⟨h2, rfl⟩

/-- C6: for every site URL that does not parse as an absolute URL, and for
every parsed site URL paired with a return path whose join fails,
`Redirector::new` returns `BadUrl` and constructs no Redirector. -/
theorem redirector_new_bad_url : ∀ site ret : String,
    (parseUrl site = none → Redirector.new site ret = .error .BadUrl) ∧
    (∀ base, parseUrl site = some base → base.join ret = none →
      Redirector.new site ret = .error .BadUrl) := by
  intro site ret
  constructor
  · intro h
    rw [Redirector.new, h]
  · intro base hb hj
    rw [Redirector.new]
    simp only [hb, hj]

/-- C6 witness: the theorem applied at a non-URL site string and at a
valid site with an unjoinable return reference. -/
theorem redirector_new_bad_url_witness :
    Redirector.new "notaurl" "/callback" = .error .BadUrl ∧
    Redirector.new "http://h" "http://" = .error .BadUrl :=
  ⟨(redirector_new_bad_url "notaurl" "/callback").1 (by rfl),
   (redirector_new_bad_url "http://h" "http://").2 ⟨"http", "h", "/", none⟩ (by rfl) (by rfl)⟩

/-- C10 counterexample: on the body `is_valid:true:x` the older lib.rs
scan (split on every `:`) judges the response valid and returns the
extracted identity, while the newer verifier.rs scan (split on the first
`:` only) rejects it — so the two revisions do not decide identically. -/
theorem old_new_scan_disagree :
    parseVerifyValid "is_valid:true:x" = true ∧
    verifyResponseValid "is_valid:true:x" = false ∧
    parse_verify_response "https://example.com/openid/id/76561197960435530" "is_valid:true:x"
      = .ok 76561197960435530 ∧
    Verifier.verify_response ⟨76561197960435530⟩ "is_valid:true:x"
      = .error .AuthenticationFailed :=
  ⟨rfl, rfl, rfl, rfl⟩

/-- C10 (amended): the two scans do not decide identically; what holds is
that the newer scan accepts only bodies the older one also accepts, the
older scan accepts a body exactly when the newer one accepts it or some
line of the body begins with `is_valid:true:`, and hence the two disagree
precisely on the bodies the newer scan rejects that contain a line
beginning with `is_valid:true:`. -/
theorem old_scan_exact_characterization : ∀ body : String,
    (verifyResponseValid body = true → parseVerifyValid body = true) ∧
    (parseVerifyValid body = true ↔
      (verifyResponseValid body = true ∨
        ∃ l ∈ splitChar '\n' body.data, l.take 14 = "is_valid:true:".data)) ∧
    (parseVerifyValid body ≠ verifyResponseValid body ↔
      (verifyResponseValid body = false ∧
        ∃ l ∈ splitChar '\n' body.data, l.take 14 = "is_valid:true:".data)) := by
  intro body
  have himp : verifyResponseValid body = true → parseVerifyValid body = true := by
    intro h
    obtain ⟨l, hl, hf⟩ := (verifyResponseValid_iff body).mp h
    exact (parseVerifyValid_iff body).mpr ⟨l, hl, pairKV_of_splitFirstAt hf⟩
  have hiff : parseVerifyValid body = true ↔
      (verifyResponseValid body = true ∨
        ∃ l ∈ splitChar '\n' body.data, l.take 14 = "is_valid:true:".data) := by
    constructor
    · intro h
      obtain ⟨l, hl, hkv⟩ := (parseVerifyValid_iff body).mp h
      rcases (pairKV_isvalid_iff l).mp hkv with he | he
      · exact Or.inl
          ((verifyResponseValid_iff body).mpr ⟨l, hl, (splitFirstAt_isvalid_iff l).mpr he⟩)
      · exact Or.inr ⟨l, hl, he⟩
    · rintro (h | ⟨l, hl, he⟩)
      · exact himp h
      · exact (parseVerifyValid_iff body).mpr ⟨l, hl, (pairKV_isvalid_iff l).mpr (Or.inr he)⟩
  refine ⟨himp, hiff, ?_, ?_⟩
  · intro hne
    cases hv : verifyResponseValid body with
    | true => exact absurd (by rw [himp hv, hv]) hne
    | false =>
      refine ⟨rfl, ?_⟩
      cases hp : parseVerifyValid body with
      | false =>
        rw [hp, hv] at hne
        exact absurd rfl hne
      | true =>
        rcases hiff.mp hp with h | h
        · rw [h] at hv
          exact Bool.noConfusion hv
        · exact h
  · rintro ⟨hv, l, hl, he⟩
    have hp : parseVerifyValid body = true := hiff.mpr (Or.inr ⟨l, hl, he⟩)
    rw [hp, hv]
    simp

/-- C10 (amended) witness: the theorem applied at concrete bodies,
including one on which a line begins with `is_valid:true:` yet both
scans agree, and the counterexample body on which they disagree. -/
theorem old_scan_exact_characterization_witness :
    parseVerifyValid "is_valid:true\nns:foo" = true ∧
    parseVerifyValid "is_valid:true:x\nis_valid:true" = true ∧
    parseVerifyValid "is_valid:true:x" ≠ verifyResponseValid "is_valid:true:x" :=
  ⟨(old_scan_exact_characterization "is_valid:true\nns:foo").1 (by decide),
   (old_scan_exact_characterization "is_valid:true:x\nis_valid:true").2.1.mpr
     (Or.inr (by decide)),
   (old_scan_exact_characterization "is_valid:true:x").2.2.mpr ⟨by decide, by decide⟩⟩

end SteamAuth
